import Mathlib

/-!
Verification of the fakepoint discovery-and-reload pipeline and the
faketories helper of the `@test-effective/fakes` package, shallowly
embedded from `src/fakepoints/collect-fakepoints-vite-plugin.ts`,
`src/fakepoints/fakepoints-registry.ts` and `src/faketories/faketories.ts`.
-/

namespace Fakes

/-- Model of JavaScript `String.prototype.endsWith`: suffix test on the
character sequence of the string. -/
def jsEndsWith (s pat : String) : Bool := pat.data.isSuffixOf s.data

/-- Model of JavaScript `Array.prototype.join(sep)` on a list of strings. -/
def jsJoin (sep : String) : List String → String
  | [] => ""
  | [x] => x
  | x :: y :: xs => x ++ sep ++ jsJoin sep (y :: xs)

/-- Model of `basePath ? path.join(basePath, entry.name) : entry.name`
from the scanner: relative paths are joined with a forward slash, and a
name joined onto the empty base path is the name itself. -/
def pathJoin (base name : String) : String :=
  if base = "" then name else base ++ "/" ++ name

/-- A file-system entry as surfaced by `readdir(dir, { withFileTypes: true })`.
A directory whose own `readdir` call would throw is modelled as
`unreadableDir` (its hidden entries are carried so that theorems can state
that they are never reached); an entry that is neither a file nor a
directory (`isFile()` and `isDirectory()` both false) is `other`. -/
inductive FsEntry where
  | file (name : String)
  | dir (name : String) (entries : List FsEntry)
  | unreadableDir (name : String) (entries : List FsEntry)
  | other (name : String)
deriving Repr

/-- The root directory handed to `findFakepointFiles`: either its `readdir`
succeeds with a listing, or it throws. -/
inductive FsRoot where
  | readable (entries : List FsEntry)
  | unreadable
deriving Repr

/-- The `name` of an entry, as `entry.name` in the source. -/
def FsEntry.entryName : FsEntry → String
  | .file n => n
  | .dir n _ => n
  | .unreadableDir n _ => n
  | .other n => n

/-- `const defaultIgnoreDirs = new Set(['node_modules', 'dist', 'tmp', '.git'])`. -/
def defaultIgnoreDirs : List String := ["node_modules", "dist", "tmp", ".git"]

/-- Membership in `allIgnoreDirs = new Set([...defaultIgnoreDirs, ...ignoreDirs])`. -/
def isIgnoredDir (ignoreDirs : List String) (name : String) : Bool :=
  defaultIgnoreDirs.contains name || ignoreDirs.contains name

/-- The console message emitted by the `catch` branch of `walk` when
`readdir(dir)` throws. -/
def readdirWarning (dirAbs : String) : String :=
  "Warning: Could not read directory " ++ dirAbs

/-- The inner `walk(dir, basePath)` of `findFakepointFiles`, over the listing
of the current directory. Returns the collected relative paths (pushed in
entry order, recursing depth-first into non-ignored subdirectories) together
with the `console.warn` messages emitted for unreadable directories. -/
def walkEntries (ignoreDirs : List String) :
    List FsEntry → String → String → List String × List String
  | [], _, _ => ([], [])
  | .file name :: rest, dirAbs, basePath =>
      let rs := walkEntries ignoreDirs rest dirAbs basePath
      ((if jsEndsWith name ".fakepoints.ts" then [pathJoin basePath name] else []) ++ rs.1,
       rs.2)
  | .dir name sub :: rest, dirAbs, basePath =>
      let r := if isIgnoredDir ignoreDirs name then (([], []) : List String × List String)
               else walkEntries ignoreDirs sub (dirAbs ++ "/" ++ name) (pathJoin basePath name)
      let rs := walkEntries ignoreDirs rest dirAbs basePath
      (r.1 ++ rs.1, r.2 ++ rs.2)
  | .unreadableDir name _ :: rest, dirAbs, basePath =>
      let r := if isIgnoredDir ignoreDirs name then (([], []) : List String × List String)
               else (([], [readdirWarning (dirAbs ++ "/" ++ name)]) : List String × List String)
      let rs := walkEntries ignoreDirs rest dirAbs basePath
      (r.1 ++ rs.1, r.2 ++ rs.2)
  | .other _ :: rest, dirAbs, basePath => walkEntries ignoreDirs rest dirAbs basePath

/-- `findFakepointFiles(rootDir, ignoreDirs)`: walks the tree from the root,
returning the collected file list and the warnings logged along the way.
The hard-coded suffix `.fakepoints.ts` comes from the source; the plugin
options expose no way to change it. -/
def findFakepointFiles (rootDir : String) (root : FsRoot)
    (ignoreDirs : List String) : List String × List String :=
  match root with
  | .readable entries => walkEntries ignoreDirs entries rootDir ""
  | .unreadable => ([], [readdirWarning rootDir])

/-- The options record `CollectFakepointsPluginOptions` of the plugin.
Its only fields are `workspaceRoot`, `ignoreDirs`, `watch` and `debug`;
in particular there is no `filePattern` field. -/
structure CollectFakepointsPluginOptions where
  workspaceRoot : Option String := none
  ignoreDirs : Option (List String) := none
  watch : Option Bool := none
  debug : Option Bool := none

/-- The directory tree used to exercise the missing `filePattern` option:
`src/models` holds one `.fakepoints.ts` file and one `.test-data.ts` file. -/
def patternTestTree : List FsEntry :=
  [.dir "src" [.dir "models" [.file "user.fakepoints.ts", .file "user.test-data.ts"]]]

/-! ### Specification-side characterization of the scan -/

/-- All files in a tree with their directory components and file name, in
depth-first entry order, with no filtering at all (ignored and unreadable
directories are entered as well: this enumerates what is physically in the
tree, for comparison with what the scan returns). -/
def allFiles : List FsEntry → List (List String × String)
  | [] => []
  | .file n :: rest => ([], n) :: allFiles rest
  | .dir n sub :: rest => ((allFiles sub).map fun p => (n :: p.1, p.2)) ++ allFiles rest
  | .unreadableDir n sub :: rest => ((allFiles sub).map fun p => (n :: p.1, p.2)) ++ allFiles rest
  | .other _ :: rest => allFiles rest

/-- Joining path components with forward slashes. -/
def joinComponents (comps : List String) : String := jsJoin "/" comps

/-- A well-formed file/directory name: nonempty and free of path separators. -/
def wfName (s : String) : Bool := (!(s = "")) && !(s.data.contains '/')

/-- Well-formed directory listing: every entry has a well-formed name,
sibling names are pairwise distinct (as on a real file system), and
subdirectory listings are recursively well-formed. -/
def wfEntries : List FsEntry → Bool
  | [] => true
  | .file n :: rest =>
      wfName n && (rest.map FsEntry.entryName).all (fun m => !(m = n)) && wfEntries rest
  | .dir n sub :: rest =>
      wfName n && (rest.map FsEntry.entryName).all (fun m => !(m = n))
        && wfEntries sub && wfEntries rest
  | .unreadableDir n sub :: rest =>
      wfName n && (rest.map FsEntry.entryName).all (fun m => !(m = n))
        && wfEntries sub && wfEntries rest
  | .other n :: rest =>
      wfName n && (rest.map FsEntry.entryName).all (fun m => !(m = n)) && wfEntries rest

/-- A tree in which every directory is readable. -/
def readableEntries : List FsEntry → Bool
  | [] => true
  | .dir _ sub :: rest => readableEntries sub && readableEntries rest
  | .unreadableDir _ _ :: _ => false
  | _ :: rest => readableEntries rest

/-- The tree with every unreadable directory (and hence its whole subtree)
removed. -/
def pruneUnreadable : List FsEntry → List FsEntry
  | [] => []
  | .dir n sub :: rest => .dir n (pruneUnreadable sub) :: pruneUnreadable rest
  | .unreadableDir _ _ :: rest => pruneUnreadable rest
  | e :: rest => e :: pruneUnreadable rest

/-- Absolute paths of the unreadable directories the walk actually tries to
read: those reachable through non-ignored readable directories and not
themselves ignored, in walk order. -/
def unreadableDirsIn (ignoreDirs : List String) : List FsEntry → String → List String
  | [], _ => []
  | .dir n sub :: rest, dirAbs =>
      (if isIgnoredDir ignoreDirs n then []
       else unreadableDirsIn ignoreDirs sub (dirAbs ++ "/" ++ n))
      ++ unreadableDirsIn ignoreDirs rest dirAbs
  | .unreadableDir n _ :: rest, dirAbs =>
      (if isIgnoredDir ignoreDirs n then [] else [dirAbs ++ "/" ++ n])
      ++ unreadableDirsIn ignoreDirs rest dirAbs
  | _ :: rest, dirAbs => unreadableDirsIn ignoreDirs rest dirAbs

/-! ### Virtual-module synthesis (the `load` hook) -/

/-- Model of `path.posix.join('/', file)` for the root-relative,
forward-slash paths produced by the scan. -/
def posixJoinRoot (file : String) : String := "/" ++ file

/-- `fakepointFiles.map(file => "import '" + path.posix.join('/', file) + "';")`. -/
def importStatements (files : List String) : List String :=
  files.map fun file => "import '" ++ posixJoinRoot file ++ "';"

/-- The fixed first line of the generated virtual module. -/
def virtualModuleHeader : String :=
  "// Auto-generated virtual module that imports all .fakepoints.ts files"

/-- The trailing statement appended when `debug` is set. -/
def debugCountStatement (n : Nat) : String :=
  "console.log('Loaded " ++ toString n ++ " fakepoint file(s)');"

/-- The template-literal module source returned by the `load` hook:
header line, the joined import statements, a blank line, the optional debug
statement, and a trailing newline. -/
def loadVirtualModuleSource (debug : Bool) (files : List String) : String :=
  virtualModuleHeader ++ "\n"
    ++ jsJoin "\n" (importStatements files)
    ++ "\n\n"
    ++ (if debug then debugCountStatement (importStatements files).length else "")
    ++ "\n"

/-- The `console.warn` message emitted when no fakepoint files were found. -/
def emptyScanWarning (workspaceRoot : String) : String :=
  "� No fakepoint files found in " ++ workspaceRoot
    ++ "\nYou may need to configure the workspaceRoot in your vite.config.ts file \nto point to the actual root of the workspace."

/-- The warnings the `load` hook sends to the console (not into the module):
exactly one, when the import list is empty. -/
def loadWarnings (workspaceRoot : String) (files : List String) : List String :=
  if (importStatements files).length = 0 then [emptyScanWarning workspaceRoot] else []

/-- Splitting a character sequence at every newline, keeping empty segments:
the line structure of a piece of generated text. -/
def splitNl : List Char → List (List Char)
  | [] => [[]]
  | c :: cs =>
    if c = '\n' then [] :: splitNl cs
    else
      match splitNl cs with
      | [] => [[c]]
      | l :: ls => (c :: l) :: ls

/-- The lines of a string. -/
def moduleLines (s : String) : List String := (splitNl s.data).map String.mk

/-! ### Watcher wiring (`configureServer`) as a state machine -/

/-- File-system events delivered by the host watcher. Only `add` and
`unlink` have handlers wired; everything else (`change`, …) is summarized
as `change`. -/
inductive FsEvent where
  | add (file : String)
  | unlink (file : String)
  | change (file : String)
deriving Repr, DecidableEq

/-- The mutable state owned by the `configureServer` wiring:
`tracked` is the `absoluteFakepointPaths` array, `watcherPaths` records
every path explicitly handed to `server.watcher.add`, `restartReasons`
records one entry per `triggerVitestRerun(reason)` invocation, and
`listenersAttached` is whether the add/unlink handlers were wired at all. -/
structure ServerState where
  tracked : List String
  watcherPaths : List String
  restartReasons : List String
  listenersAttached : Bool
deriving Repr, DecidableEq

/-- Model of `path.resolve(workspaceRoot, file)` for a root-relative `file`. -/
def resolvePath (root file : String) : String := root ++ "/" ++ file

/-- `configureServer`: when `watch` is false it returns before wiring any
listener; otherwise it scans, explicitly adds every discovered absolute
path and the workspace root to the watcher, and attaches the handlers. -/
def configureServer (workspaceRoot : String) (watch : Bool) (root : FsRoot)
    (ignoreDirs : List String) : ServerState :=
  if watch = false then
    { tracked := [], watcherPaths := [], restartReasons := [], listenersAttached := false }
  else
    let files := (findFakepointFiles workspaceRoot root ignoreDirs).1
    let abs := files.map (resolvePath workspaceRoot)
    { tracked := abs
      watcherPaths := abs ++ [workspaceRoot]
      restartReasons := []
      listenersAttached := true }

/-- One watcher event hitting the server: if no listeners were attached the
state is untouched; the `add` handler appends matching paths to the tracked
list, adds them to the watcher and requests a restart tagged `file added`;
the `unlink` handler removes the first occurrence from the tracked list and
requests a restart tagged `file deleted`; paths not ending in
`.fakepoints.ts` are ignored. -/
def handleEvent (s : ServerState) : FsEvent → ServerState
  | .add file =>
      if s.listenersAttached && jsEndsWith file ".fakepoints.ts" then
        { s with tracked := s.tracked ++ [file]
                 watcherPaths := s.watcherPaths ++ [file]
                 restartReasons := s.restartReasons ++ ["file added"] }
      else s
  | .unlink file =>
      if s.listenersAttached && jsEndsWith file ".fakepoints.ts" then
        { s with tracked := s.tracked.erase file
                 restartReasons := s.restartReasons ++ ["file deleted"] }
      else s
  | .change _ => s

/-- Folding a sequence of watcher events over the server state. -/
def processEvents (s : ServerState) (events : List FsEvent) : ServerState :=
  events.foldl handleEvent s

/-! ### The add/unlink handlers as event-loop traces

The handlers are synchronous callbacks that call the `async` helper
`triggerVitestRerun` without `await`; JavaScript run-to-completion
semantics make the helper run synchronously up to its first `await`
(`await server.restart()`), at which point control returns to the handler,
which finishes; the restart settles only afterwards. The interpreter below
makes that ordering explicit. -/

/-- A statement of the `async` helper `triggerVitestRerun`. -/
inductive AsyncStmt where
  | consoleLog (msg : String)
  | awaitRestart
deriving Repr, DecidableEq

/-- A statement of a watcher callback body. `callAsyncNoAwait` is a call of
an async function whose returned promise is not awaited. -/
inductive HandlerStmt where
  | consoleLog (msg : String)
  | pushTracked (p : String)
  | eraseTracked (p : String)
  | watcherAdd (p : String)
  | callAsyncNoAwait (proc : List AsyncStmt)
deriving Repr

/-- Observable events of one handler invocation, in the order the event
loop produces them. -/
inductive TraceEvt where
  | logged (msg : String)
  | pushedTracked (p : String)
  | erasedTracked (p : String)
  | watcherAdded (p : String)
  | restartCalled
  | restartCompleted
  | restartRejected
  | unhandledRejection
  | handlerReturned
deriving Repr, DecidableEq

/-- The body of `triggerVitestRerun(reason)`. -/
def triggerVitestRerunBody (reason : String) : List AsyncStmt :=
  [.consoleLog ("   💡 Triggering Vitest rerun (" ++ reason ++ ")"),
   .consoleLog "   ✓ Restarting server to reload virtual module",
   .awaitRestart]

/-- The body of the `add` watcher callback for a given path. -/
def addHandlerBody (debug : Bool) (file : String) : List HandlerStmt :=
  if jsEndsWith file ".fakepoints.ts" then
    [.consoleLog ("➕ [watcher:add] New fakepoint file added: " ++ file),
     .pushTracked file,
     .watcherAdd file]
    ++ (if debug then [.consoleLog "   ✓ Added to watcher for change detection"] else [])
    ++ [.callAsyncNoAwait (triggerVitestRerunBody "file added")]
  else []

/-- The body of the `unlink` watcher callback for a given path. -/
def unlinkHandlerBody (file : String) : List HandlerStmt :=
  if jsEndsWith file ".fakepoints.ts" then
    [.consoleLog ("➖ [watcher:unlink] Fakepoint file deleted: " ++ file),
     .eraseTracked file,
     .callAsyncNoAwait (triggerVitestRerunBody "file deleted")]
  else []

/-- Running an async body synchronously up to its first `await`: the
events it emits, and the continuation left pending at the suspension
point (`none` when the body finished without suspending). Reaching
`awaitRestart` invokes `server.restart()` and suspends. -/
def runAsyncPrefix : List AsyncStmt → List TraceEvt × Option (List AsyncStmt)
  | [] => ([], none)
  | .consoleLog m :: rest =>
      let r := runAsyncPrefix rest
      (.logged m :: r.1, r.2)
  | .awaitRestart :: rest => ([.restartCalled], some rest)

/-- Running the synchronous part of a handler body: the events emitted
before the handler returns, plus the async continuations left pending. -/
def runHandlerStmts : List HandlerStmt → List TraceEvt × List (List AsyncStmt)
  | [] => ([], [])
  | s :: rest =>
      let cur : List TraceEvt × List (List AsyncStmt) :=
        match s with
        | .consoleLog m => ([.logged m], [])
        | .pushTracked p => ([.pushedTracked p], [])
        | .eraseTracked p => ([.erasedTracked p], [])
        | .watcherAdd p => ([.watcherAdded p], [])
        | .callAsyncNoAwait proc =>
            let r := runAsyncPrefix proc
            (r.1, match r.2 with | some k => [k] | none => [])
      let rs := runHandlerStmts rest
      (cur.1 ++ rs.1, cur.2 ++ rs.2)

/-- Resuming a continuation after a restart settles; later `await`s settle
with the same outcome. On rejection the rest of the async body is skipped
and, the promise being unobserved, the rejection surfaces as an unhandled
rejection. -/
def resumeAsync (restartOk : Bool) : List AsyncStmt → List TraceEvt
  | [] => []
  | .consoleLog m :: rest => .logged m :: resumeAsync restartOk rest
  | .awaitRestart :: rest =>
      .restartCalled ::
        (if restartOk then .restartCompleted :: resumeAsync restartOk rest
         else [.restartRejected, .unhandledRejection])

/-- Settling the first pending `await server.restart()` of a continuation. -/
def settleContinuation (restartOk : Bool) (k : List AsyncStmt) : List TraceEvt :=
  if restartOk then .restartCompleted :: resumeAsync restartOk k
  else [.restartRejected, .unhandledRejection]

/-- The full event-loop trace of one handler invocation: its synchronous
events, the handler returning, then the settlement of every pending
restart in spawn order. -/
def handlerTrace (restartOk : Bool) (stmts : List HandlerStmt) : List TraceEvt :=
  let r := runHandlerStmts stmts
  r.1 ++ [.handlerReturned] ++ (r.2.map (settleContinuation restartOk)).flatten

/-- Trace of an `add` watcher event. -/
def addEventTrace (restartOk debug : Bool) (file : String) : List TraceEvt :=
  handlerTrace restartOk (addHandlerBody debug file)

/-- Trace of an `unlink` watcher event. -/
def unlinkEventTrace (restartOk : Bool) (file : String) : List TraceEvt :=
  handlerTrace restartOk (unlinkHandlerBody file)

/-! ### The fakepoints registry -/

/-- `registerFakepoints` appends the function to the process-wide
`fakepointsToRun` list. A registered function is modelled as a
state-effecting computation returning an optional value (`undefined`
becomes `none`). -/
def registerFakepoints {σ α : Type} (fns : List (σ → σ × Option α))
    (f : σ → σ × Option α) : List (σ → σ × Option α) :=
  fns ++ [f]

/-- `runAllFakepoints`: calls every registered function in list order,
threading the effect state, and pushes each non-`undefined` result, in
order, without inspecting it further. -/
def runAllFakepoints {σ α : Type} : List (σ → σ × Option α) → σ → σ × List α
  | [], s => (s, [])
  | f :: rest, s =>
      let r := f s
      let rs := runAllFakepoints rest r.1
      (rs.1, match r.2 with | none => rs.2 | some v => v :: rs.2)

/-- The raw return value of each registered function, in call order, with
the effect state threaded exactly as `runAllFakepoints` threads it. -/
def callResults {σ α : Type} : List (σ → σ × Option α) → σ → List (Option α)
  | [], _ => []
  | f :: rest, s => (f s).2 :: callResults rest (f s).1

/-! ### Faketories -/

/-- The props handed to an entity faketory. `part` models the optional
`partial` field; an entity of type `T` is modelled as a total map `K → V`
over its keys and a `Partial<T>` as `K → Option V`. -/
structure EntityFaketoryProps (K V : Type) where
  seedingMode : Bool
  part : Option (K → Option V)
  index : Option Nat

/-- An entity faketory: produces an entity from the props. -/
def EntityFaketory (K V : Type) := EntityFaketoryProps K V → K → V

/-- JavaScript object spread `{ ...result, ...partial }`: keys present in
the partial win, every other key keeps the value from `result`. -/
def spreadMerge {K V : Type} (result : K → V) (p : K → Option V) : K → V :=
  fun k => (p k).getD (result k)

/-- The wrapper `createFaketory` builds around the entity faketory:
run it, then spread the partial over the result when one was provided. -/
def wrappedEntityFaketory {K V : Type} (ef : EntityFaketory K V)
    (props : EntityFaketoryProps K V) : K → V :=
  match props.part with
  | some p => spreadMerge (ef props) p
  | none => ef props

/-- `generateOne(partial?)`. -/
def generateOne {K V : Type} (ef : EntityFaketory K V)
    (part : Option (K → Option V)) : K → V :=
  wrappedEntityFaketory ef ⟨false, part, some 0⟩

/-- `generateMany` with its three call shapes: a count with index-aligned
partials, a bare count, or a list of partials. The `Promise.all` over
`Array.from({ length }, …)` and the `map` over the partials are modelled
as maps over the index range. -/
def generateMany {K V : Type} (ef : EntityFaketory K V)
    (input : Nat ⊕ List (K → Option V))
    (partials : Option (List (K → Option V))) : List (K → V) :=
  match input, partials with
  | .inl count, some ps =>
      (List.range count).map fun index =>
        wrappedEntityFaketory ef ⟨false, ps[index]?, some index⟩
  | .inl count, none =>
      (List.range count).map fun index =>
        wrappedEntityFaketory ef ⟨false, none, some index⟩
  | .inr ps, _ =>
      ps.mapIdx fun index p =>
        wrappedEntityFaketory ef ⟨false, some p, some index⟩

/-- `seedOne(partial?)`: creates one entity in seeding mode and inserts it
into the collection, modelled as a list the created entity is appended to. -/
def seedOne {K V : Type} (ef : EntityFaketory K V)
    (part : Option (K → Option V)) (store : List (K → V)) :
    (K → V) × List (K → V) :=
  let e := wrappedEntityFaketory ef ⟨true, part, some 0⟩
  (e, store ++ [e])

/-- `seedMany` with its three call shapes; the sequential for-loop that
creates each entity and pushes it into the collection is modelled as a map
over the index range with the store receiving the entities in order. In
the bare-count and partial-list shapes the source first normalizes to a
count plus an array of (possibly `undefined`) partials. -/
def seedMany {K V : Type} (ef : EntityFaketory K V)
    (input : Nat ⊕ List (K → Option V))
    (partialsArg : Option (List (K → Option V)))
    (store : List (K → V)) : List (K → V) × List (K → V) :=
  match input, partialsArg with
  | .inl count, some ps =>
      let entities := (List.range count).map fun index =>
        wrappedEntityFaketory ef ⟨true, ps[index]?, some index⟩
      (entities, store ++ entities)
  | _, _ =>
      let count := match input with | .inl n => n | .inr ps => ps.length
      let ps : List (Option (K → Option V)) :=
        match input with
        | .inl n => List.replicate n none
        | .inr ps => ps.map some
      let entities := (List.range count).map fun index =>
        wrappedEntityFaketory ef ⟨true, (ps[index]?).join, some index⟩
      (entities, store ++ entities)

/-! ### Auxiliary views of the walk used to relate it to `allFiles` -/

/-- The component paths (directories followed by the file name) of the
files the walk keeps: suffix-matching files, reached only through
non-ignored readable directories. -/
def keptComps (ignoreDirs : List String) : List FsEntry → List (List String)
  | [] => []
  | .file n :: rest =>
      (if jsEndsWith n ".fakepoints.ts" then [[n]] else []) ++ keptComps ignoreDirs rest
  | .dir n sub :: rest =>
      (if isIgnoredDir ignoreDirs n then []
       else (keptComps ignoreDirs sub).map (n :: ·)) ++ keptComps ignoreDirs rest
  | .unreadableDir _ _ :: rest => keptComps ignoreDirs rest
  | .other _ :: rest => keptComps ignoreDirs rest

/-- Folding `pathJoin` over path components starting from a base path,
exactly as the recursive walk accumulates `basePath`. -/
def extendBase (base : String) (comps : List String) : String :=
  comps.foldl pathJoin base

/-- The tree of the specification scenario: two matching files under `src`
and one under `node_modules`. -/
def demoTree : List FsEntry :=
  [.dir "src" [.dir "models" [.file "user.fakepoints.ts"],
               .dir "utils" [.file "helper.fakepoints.ts"]],
   .dir "node_modules" [.dir "pkg" [.file "ignored.fakepoints.ts"]]]

end Fakes

namespace Fakes

/-! ### Helper lemmas -/

theorem handleEvent_not_attached (s : ServerState) (h : s.listenersAttached = false)
    (e : FsEvent) : handleEvent s e = s := by
  cases e <;> simp [handleEvent, h]

theorem processEvents_not_attached :
    ∀ (events : List FsEvent) (s : ServerState), s.listenersAttached = false →
      processEvents s events = s := by
  intro events
  induction events with
  | nil => intro s _; rfl
  | cons e rest ih =>
      intro s h
      show List.foldl handleEvent (handleEvent s e) rest = s
      rw [handleEvent_not_attached s h e]
      exact ih s h

theorem handleEvent_attached (s : ServerState) (e : FsEvent) :
    (handleEvent s e).listenersAttached = s.listenersAttached := by
  cases e <;> simp only [handleEvent] <;> split <;> rfl

theorem runAllFakepoints_snd {σ α : Type} :
    ∀ (fns : List (σ → σ × Option α)) (s : σ),
      (runAllFakepoints fns s).2 = (callResults fns s).filterMap id := by
  intro fns
  induction fns with
  | nil => intro s; rfl
  | cons f rest ih =>
      intro s
      simp only [runAllFakepoints, callResults, List.filterMap_cons]
      cases (f s).2 <;> simp [ih]

theorem runAllFakepoints_fst {σ α : Type} :
    ∀ (fns : List (σ → σ × Option α)) (s : σ),
      (runAllFakepoints fns s).1 = fns.foldl (fun st g => (g st).1) s := by
  intro fns
  induction fns with
  | nil => intro s; rfl
  | cons f rest ih =>
      intro s
      simp only [runAllFakepoints, List.foldl_cons]
      cases (f s).2 <;> simp [ih]

theorem callResults_length {σ α : Type} :
    ∀ (fns : List (σ → σ × Option α)) (s : σ),
      (callResults fns s).length = fns.length := by
  intro fns
  induction fns with
  | nil => intro s; rfl
  | cons f rest ih => intro s; simp [callResults, ih]

theorem callResults_append {σ α : Type} :
    ∀ (l₁ l₂ : List (σ → σ × Option α)) (s : σ),
      callResults (l₁ ++ l₂) s =
        callResults l₁ s ++ callResults l₂ (l₁.foldl (fun st g => (g st).1) s) := by
  intro l₁
  induction l₁ with
  | nil => intro l₂ s; rfl
  | cons f rest ih => intro l₂ s; simp [callResults, ih]

theorem filterMap_id_length {α : Type} :
    ∀ l : List (Option α), (l.filterMap id).length = (l.filter Option.isSome).length := by
  intro l
  induction l with
  | nil => rfl
  | cons o rest ih => cases o <;> simp [List.filterMap_cons, ih]

theorem walkEntries_fst_eq (ign : List String) :
    ∀ (es : List FsEntry) (dirAbs basePath : String),
      (walkEntries ign es dirAbs basePath).1 =
        (keptComps ign es).map (extendBase basePath) := by
  intro es dirAbs basePath
  induction es, dirAbs, basePath using walkEntries.induct ign with
  | case1 dirAbs basePath => simp [walkEntries, keptComps]
  | case2 n rest dirAbs basePath ih =>
      simp only [walkEntries, keptComps, List.map_append]
      rw [ih]
      split <;> simp [extendBase]
  | case3 n sub rest dirAbs basePath ihsub ihrest =>
      simp only [walkEntries, keptComps, List.map_append]
      rw [ihrest]
      split
      · simp
      · rw [ihsub]
        simp only [List.map_map]
        rfl
  | case4 n hidden rest dirAbs basePath ih =>
      simp only [walkEntries, keptComps]
      rw [ih]
      split <;> simp
  | case5 n rest dirAbs basePath ih =>
      simp only [walkEntries, keptComps]
      exact ih

theorem walkEntries_snd_eq (ign : List String) :
    ∀ (es : List FsEntry) (dirAbs basePath : String),
      (walkEntries ign es dirAbs basePath).2 =
        (unreadableDirsIn ign es dirAbs).map readdirWarning := by
  intro es dirAbs basePath
  induction es, dirAbs, basePath using walkEntries.induct ign with
  | case1 dirAbs basePath => simp [walkEntries, unreadableDirsIn]
  | case2 n rest dirAbs basePath ih =>
      simp only [walkEntries, unreadableDirsIn]
      exact ih
  | case3 n sub rest dirAbs basePath ihsub ihrest =>
      simp only [walkEntries, unreadableDirsIn, List.map_append]
      rw [ihrest]
      split
      · simp
      · rw [ihsub]
  | case4 n hidden rest dirAbs basePath ih =>
      simp only [walkEntries, unreadableDirsIn, List.map_append]
      rw [ih]
      split <;> simp
  | case5 n rest dirAbs basePath ih =>
      simp only [walkEntries, unreadableDirsIn]
      exact ih

theorem keptComps_prune (ign : List String) :
    ∀ es : List FsEntry, keptComps ign (pruneUnreadable es) = keptComps ign es := by
  intro es
  induction es using allFiles.induct with
  | case1 => simp [pruneUnreadable]
  | case2 n rest ih => simp only [pruneUnreadable, keptComps, ih]
  | case3 n sub rest ihsub ihrest =>
      simp only [pruneUnreadable, keptComps, ihsub, ihrest]
  | case4 n sub rest ihsub ihrest =>
      simp only [pruneUnreadable, keptComps, ihrest]
  | case5 n rest ih => simp only [pruneUnreadable, keptComps, ih]

theorem unreadableDirsIn_prune (ign : List String) :
    ∀ (es : List FsEntry) (dirAbs : String),
      unreadableDirsIn ign (pruneUnreadable es) dirAbs = [] := by
  intro es
  induction es using allFiles.induct with
  | case1 => intro dirAbs; simp [pruneUnreadable, unreadableDirsIn]
  | case2 n rest ih => intro dirAbs; simp only [pruneUnreadable, unreadableDirsIn, ih]
  | case3 n sub rest ihsub ihrest =>
      intro dirAbs
      simp only [pruneUnreadable, unreadableDirsIn, ihsub, ihrest]
      split <;> rfl
  | case4 n sub rest ihsub ihrest =>
      intro dirAbs; simp only [pruneUnreadable, unreadableDirsIn, ihrest]
  | case5 n rest ih => intro dirAbs; simp only [pruneUnreadable, unreadableDirsIn, ih]

theorem wfEntries_cons (e : FsEntry) (rest : List FsEntry)
    (h : wfEntries (e :: rest) = true) :
    wfName e.entryName = true ∧
    (∀ m ∈ rest.map FsEntry.entryName, m ≠ e.entryName) ∧
    wfEntries rest = true := by
  have hall : ∀ (n : String) (l : List String), l.all (fun m => !(m = n)) = true →
      ∀ m ∈ l, m ≠ n := by
    intro n l ha m hm
    simp only [List.all_eq_true] at ha
    simpa using ha m hm
  cases e with
  | file n =>
      simp only [wfEntries, Bool.and_eq_true, FsEntry.entryName] at h ⊢
      exact ⟨h.1.1, hall n _ h.1.2, h.2⟩
  | dir n sub =>
      simp only [wfEntries, Bool.and_eq_true, FsEntry.entryName] at h ⊢
      exact ⟨h.1.1.1, hall n _ h.1.1.2, h.2⟩
  | unreadableDir n sub =>
      simp only [wfEntries, Bool.and_eq_true, FsEntry.entryName] at h ⊢
      exact ⟨h.1.1.1, hall n _ h.1.1.2, h.2⟩
  | other n =>
      simp only [wfEntries, Bool.and_eq_true, FsEntry.entryName] at h ⊢
      exact ⟨h.1.1, hall n _ h.1.2, h.2⟩

theorem wfEntries_dir_sub (n : String) (sub rest : List FsEntry)
    (h : wfEntries (.dir n sub :: rest) = true) : wfEntries sub = true := by
  simp only [wfEntries, Bool.and_eq_true] at h
  exact h.1.2

theorem keptComps_eq_filter (ign : List String) :
    ∀ es : List FsEntry, readableEntries es = true →
      keptComps ign es =
        ((allFiles es).filter fun p =>
          jsEndsWith p.2 ".fakepoints.ts" && p.1.all fun d => !(isIgnoredDir ign d)).map
          (fun p => p.1 ++ [p.2]) := by
  intro es
  induction es using allFiles.induct with
  | case1 => intro _; simp [keptComps, allFiles]
  | case2 n rest ih =>
      intro h
      have hr : readableEntries rest = true := by
        simpa [readableEntries] using h
      simp only [keptComps, allFiles, List.filter_cons]
      rw [ih hr]
      by_cases he : jsEndsWith n ".fakepoints.ts" <;> simp [he]
  | case3 n sub rest ihsub ihrest =>
      intro h
      have hsub : readableEntries sub = true := by
        simp only [readableEntries, Bool.and_eq_true] at h
        exact h.1
      have hrest : readableEntries rest = true := by
        simp only [readableEntries, Bool.and_eq_true] at h
        exact h.2
      simp only [keptComps, allFiles, List.filter_append, List.map_append]
      rw [ihrest hrest]
      congr 1
      rw [List.filter_map]
      by_cases hig : isIgnoredDir ign n
      · simp [hig, Function.comp_def]
      · rw [ihsub hsub]
        simp only [List.map_map, Function.comp_def, List.all_cons, hig, Bool.not_false,
          Bool.true_and]
        rfl
  | case4 n sub rest ihsub ihrest =>
      intro h
      simp [readableEntries] at h
  | case5 n rest ih =>
      intro h
      have hr : readableEntries rest = true := by
        simpa [readableEntries] using h
      simp only [keptComps, allFiles]
      exact ih hr

theorem keptComps_wf (ign : List String) :
    ∀ es : List FsEntry, wfEntries es = true →
      ∀ comps ∈ keptComps ign es, comps ≠ [] ∧ ∀ c ∈ comps, wfName c = true := by
  intro es
  induction es using allFiles.induct with
  | case1 => intro _ comps hc; simp [keptComps] at hc
  | case2 n rest ih =>
      intro h comps hc
      obtain ⟨hwn, _, hrest⟩ := wfEntries_cons _ _ h
      simp only [keptComps] at hc
      rcases List.mem_append.mp hc with hl | hr
      · split at hl
        · simp only [List.mem_singleton] at hl
          subst hl
          refine ⟨by simp, ?_⟩
          intro c hcm
          simp only [List.mem_singleton] at hcm
          subst hcm
          simpa [FsEntry.entryName] using hwn
        · simp at hl
      · exact ih hrest comps hr
  | case3 n sub rest ihsub ihrest =>
      intro h comps hc
      obtain ⟨hwn, _, hrest⟩ := wfEntries_cons _ _ h
      have hsub := wfEntries_dir_sub n sub rest h
      simp only [keptComps] at hc
      rcases List.mem_append.mp hc with hl | hr
      · split at hl
        · simp at hl
        · simp only [List.mem_map] at hl
          obtain ⟨cs, hcs, heq⟩ := hl
          subst heq
          refine ⟨by simp, ?_⟩
          intro c hcm
          rcases List.mem_cons.mp hcm with hcn | hcc
          · subst hcn; simpa [FsEntry.entryName] using hwn
          · exact (ihsub hsub cs hcs).2 c hcc
      · exact ihrest hrest comps hr
  | case4 n sub rest ihsub ihrest =>
      intro h comps hc
      obtain ⟨_, _, hrest⟩ := wfEntries_cons _ _ h
      simp only [keptComps] at hc
      exact ihrest hrest comps hc
  | case5 n rest ih =>
      intro h comps hc
      obtain ⟨_, _, hrest⟩ := wfEntries_cons _ _ h
      simp only [keptComps] at hc
      exact ih hrest comps hc

theorem keptComps_head (ign : List String) :
    ∀ (es : List FsEntry) (comps : List String), comps ∈ keptComps ign es →
      ∃ n ∈ es.map FsEntry.entryName, comps.head? = some n := by
  intro es
  induction es using allFiles.induct with
  | case1 => intro comps hc; simp [keptComps] at hc
  | case2 n rest ih =>
      intro comps hc
      simp only [keptComps] at hc
      rcases List.mem_append.mp hc with hl | hr
      · split at hl
        · simp only [List.mem_singleton] at hl
          subst hl
          exact ⟨n, by simp [FsEntry.entryName], rfl⟩
        · simp at hl
      · obtain ⟨m, hm, hh⟩ := ih comps hr
        exact ⟨m, by simp only [List.map_cons]; exact List.mem_cons_of_mem _ hm, hh⟩
  | case3 n sub rest ihsub ihrest =>
      intro comps hc
      simp only [keptComps] at hc
      rcases List.mem_append.mp hc with hl | hr
      · split at hl
        · simp at hl
        · simp only [List.mem_map] at hl
          obtain ⟨cs, _, heq⟩ := hl
          subst heq
          exact ⟨n, by simp [FsEntry.entryName], rfl⟩
      · obtain ⟨m, hm, hh⟩ := ihrest comps hr
        exact ⟨m, by simp only [List.map_cons]; exact List.mem_cons_of_mem _ hm, hh⟩
  | case4 n sub rest ihsub ihrest =>
      intro comps hc
      simp only [keptComps] at hc
      obtain ⟨m, hm, hh⟩ := ihrest comps hc
      exact ⟨m, by simp only [List.map_cons]; exact List.mem_cons_of_mem _ hm, hh⟩
  | case5 n rest ih =>
      intro comps hc
      simp only [keptComps] at hc
      obtain ⟨m, hm, hh⟩ := ih comps hc
      exact ⟨m, by simp only [List.map_cons]; exact List.mem_cons_of_mem _ hm, hh⟩

theorem keptComps_nodup (ign : List String) :
    ∀ es : List FsEntry, wfEntries es = true → (keptComps ign es).Nodup := by
  intro es
  induction es using allFiles.induct with
  | case1 => intro _; simp [keptComps]
  | case2 n rest ih =>
      intro h
      obtain ⟨_, hdist, hrest⟩ := wfEntries_cons _ _ h
      simp only [keptComps]
      split
      · rw [List.singleton_append, List.nodup_cons]
        refine ⟨?_, ih hrest⟩
        intro hmem
        obtain ⟨m, hm, hh⟩ := keptComps_head ign rest [n] hmem
        simp only [List.head?_cons, Option.some.injEq] at hh
        exact hdist m hm (by simpa [FsEntry.entryName] using hh.symm)
      · simpa using ih hrest
  | case3 n sub rest ihsub ihrest =>
      intro h
      obtain ⟨_, hdist, hrest⟩ := wfEntries_cons _ _ h
      have hsub := wfEntries_dir_sub n sub rest h
      simp only [keptComps]
      split
      · simpa using ihrest hrest
      · refine List.Nodup.append ?_ (ihrest hrest) ?_
        · exact (ihsub hsub).map fun a b hab => by simpa using hab
        · intro x hx1 hx2
          simp only [List.mem_map] at hx1
          obtain ⟨cs, _, hexq⟩ := hx1
          obtain ⟨m, hm, hh⟩ := keptComps_head ign rest x hx2
          rw [← hexq] at hh
          simp only [List.head?_cons, Option.some.injEq] at hh
          exact hdist m hm (by simpa [FsEntry.entryName] using hh.symm)
  | case4 n sub rest ihsub ihrest =>
      intro h
      obtain ⟨_, _, hrest⟩ := wfEntries_cons _ _ h
      simp only [keptComps]
      exact ihrest hrest
  | case5 n rest ih =>
      intro h
      obtain ⟨_, _, hrest⟩ := wfEntries_cons _ _ h
      simp only [keptComps]
      exact ih hrest

theorem wfName_spec (s : String) (h : wfName s = true) :
    s.data ≠ [] ∧ ('/' : Char) ∉ s.data := by
  simp only [wfName, Bool.and_eq_true, Bool.not_eq_true'] at h
  obtain ⟨h1, h2⟩ := h
  constructor
  · intro hd
    have hs : s = "" := by
      cases s with
      | mk d => simp only [String.data] at hd; rw [hd]
    rw [hs] at h1
    simp at h1
  · intro hmem
    have ht := (List.elem_iff).mpr hmem
    rw [List.contains] at h2
    rw [h2] at ht
    cases ht

theorem append_slash_ne_empty (b c : String) : b ++ "/" ++ c ≠ "" := by
  intro h
  have hd := congrArg String.data h
  simp [String.data_append] at hd

theorem jsJoin_data_cons_cons (x y : String) (ys : List String) :
    (jsJoin "/" (x :: y :: ys)).data = x.data ++ '/' :: (jsJoin "/" (y :: ys)).data := by
  have hs : ("/" : String).data = ['/'] := rfl
  simp [jsJoin, String.data_append, hs]

theorem jsJoin_slash_shift (b c : String) (cs : List String) :
    jsJoin "/" ((b ++ "/" ++ c) :: cs) = b ++ "/" ++ jsJoin "/" (c :: cs) := by
  cases cs with
  | nil => simp [jsJoin]
  | cons d ds => simp [jsJoin, String.append_assoc]

theorem extendBase_eq_jsJoin :
    ∀ (cs : List String) (b : String), b ≠ "" →
      extendBase b cs = jsJoin "/" (b :: cs) := by
  intro cs
  induction cs with
  | nil => intro b _; simp [extendBase, jsJoin]
  | cons c cs ih =>
      intro b hb
      show extendBase (pathJoin b c) cs = _
      rw [pathJoin, if_neg hb]
      rw [ih (b ++ "/" ++ c) (append_slash_ne_empty b c)]
      rw [jsJoin_slash_shift]
      cases cs <;> rfl

theorem extendBase_empty (cs : List String) (h : cs ≠ [])
    (hw : ∀ c ∈ cs, wfName c = true) :
    extendBase "" cs = joinComponents cs := by
  cases cs with
  | nil => cases h rfl
  | cons c cs' =>
      have hc : c ≠ "" := by
        intro hce
        have := (wfName_spec c (hw c (List.mem_cons_self c cs'))).1
        rw [hce] at this
        exact this rfl
      show extendBase (pathJoin "" c) cs' = _
      rw [pathJoin, if_pos rfl]
      cases cs' with
      | nil => simp [extendBase, joinComponents, jsJoin]
      | cons d ds =>
          rw [extendBase_eq_jsJoin _ c hc]
          rfl

theorem slash_append_inj :
    ∀ (a b xs ys : List Char), ('/' : Char) ∉ a → ('/' : Char) ∉ b →
      a ++ '/' :: xs = b ++ '/' :: ys → a = b ∧ xs = ys := by
  intro a
  induction a with
  | nil =>
      intro b xs ys _ hb h
      cases b with
      | nil => simpa using h
      | cons d bs =>
          simp only [List.nil_append, List.cons_append, List.cons.injEq] at h
          exact absurd (h.1 ▸ List.mem_cons_self d bs) hb
  | cons c as ih =>
      intro b xs ys ha hb h
      cases b with
      | nil =>
          simp only [List.cons_append, List.nil_append, List.cons.injEq] at h
          exact absurd (h.1 ▸ List.mem_cons_self c as) ha
      | cons d bs =>
          simp only [List.cons_append, List.cons.injEq] at h
          obtain ⟨hcd, htail⟩ := h
          have ha' : ('/' : Char) ∉ as := fun hm => ha (List.mem_cons_of_mem c hm)
          have hb' : ('/' : Char) ∉ bs := fun hm => hb (List.mem_cons_of_mem d hm)
          obtain ⟨h1, h2⟩ := ih bs xs ys ha' hb' htail
          exact ⟨by rw [hcd, h1], h2⟩

theorem string_data_inj {a b : String} (h : a.data = b.data) : a = b := by
  cases a with
  | mk da =>
      cases b with
      | mk db =>
          simp only [String.data] at h
          rw [h]

theorem joinComponents_inj :
    ∀ (l₁ l₂ : List String),
      (∀ c ∈ l₁, wfName c = true) → (∀ c ∈ l₂, wfName c = true) →
      l₁ ≠ [] → l₂ ≠ [] → joinComponents l₁ = joinComponents l₂ → l₁ = l₂ := by
  intro l₁
  induction l₁ with
  | nil => intro l₂ _ _ h1 _ _; cases h1 rfl
  | cons x xs ih =>
      intro l₂ hw1 hw2 _ h2 heq
      cases l₂ with
      | nil => cases h2 rfl
      | cons y ys =>
          have hwx := wfName_spec x (hw1 x (List.mem_cons_self x xs))
          have hwy := wfName_spec y (hw2 y (List.mem_cons_self y ys))
          cases xs with
          | nil =>
              cases ys with
              | nil =>
                  have : x = y := by
                    simpa [joinComponents, jsJoin] using heq
                  rw [this]
              | cons y2 ys' =>
                  have hd := congrArg String.data heq
                  rw [show joinComponents [x] = x from rfl] at hd
                  rw [show joinComponents (y :: y2 :: ys') = jsJoin "/" (y :: y2 :: ys') from rfl,
                    jsJoin_data_cons_cons] at hd
                  have : ('/' : Char) ∈ x.data := by
                    rw [hd]
                    exact List.mem_append_right _ (List.mem_cons_self _ _)
                  exact absurd this hwx.2
          | cons x2 xs' =>
              cases ys with
              | nil =>
                  have hd := congrArg String.data heq
                  rw [show joinComponents (x :: x2 :: xs') = jsJoin "/" (x :: x2 :: xs') from rfl,
                    jsJoin_data_cons_cons] at hd
                  rw [show joinComponents [y] = y from rfl] at hd
                  have : ('/' : Char) ∈ y.data := by
                    rw [← hd]
                    exact List.mem_append_right _ (List.mem_cons_self _ _)
                  exact absurd this hwy.2
              | cons y2 ys' =>
                  have hd := congrArg String.data heq
                  rw [show joinComponents (x :: x2 :: xs') = jsJoin "/" (x :: x2 :: xs') from rfl,
                    show joinComponents (y :: y2 :: ys') = jsJoin "/" (y :: y2 :: ys') from rfl,
                    jsJoin_data_cons_cons, jsJoin_data_cons_cons] at hd
                  obtain ⟨hxy, htail⟩ :=
                    slash_append_inj x.data y.data _ _ hwx.2 hwy.2 hd
                  have hxey : x = y := string_data_inj hxy
                  have hrest : joinComponents (x2 :: xs') = joinComponents (y2 :: ys') :=
                    string_data_inj htail
                  have := ih (y2 :: ys')
                    (fun c hc => hw1 c (List.mem_cons_of_mem x hc))
                    (fun c hc => hw2 c (List.mem_cons_of_mem y hc))
                    (by simp) (by simp) hrest
                  rw [hxey, this]

theorem splitNl_ne_nil : ∀ cs : List Char, splitNl cs ≠ [] := by
  intro cs
  induction cs with
  | nil => simp [splitNl]
  | cons c cs ih =>
      simp only [splitNl]
      split
      · simp
      · rcases h : splitNl cs with _ | ⟨l, ls⟩ <;> simp

theorem splitNl_append_newline :
    ∀ (a b : List Char), ('\n' : Char) ∉ a →
      splitNl (a ++ '\n' :: b) = a :: splitNl b := by
  intro a
  induction a with
  | nil => intro b _; simp [splitNl]
  | cons c as ih =>
      intro b hna
      have hc : c ≠ '\n' := fun h => hna (h ▸ List.mem_cons_self c as)
      have has : ('\n' : Char) ∉ as := fun h => hna (List.mem_cons_of_mem c h)
      simp only [List.cons_append, splitNl, if_neg hc, List.append_eq]
      rw [ih b has]

theorem digitChar_ne_newline : ∀ m : Nat, Nat.digitChar m ≠ '\n' := by
  intro m
  by_cases h : m < 16
  · interval_cases m <;> decide
  ·
    have h0 : ¬ (m = 0) := by omega
    have h1 : ¬ (m = 1) := by omega
    have h2 : ¬ (m = 2) := by omega
    have h3 : ¬ (m = 3) := by omega
    have h4 : ¬ (m = 4) := by omega
    have h5 : ¬ (m = 5) := by omega
    have h6 : ¬ (m = 6) := by omega
    have h7 : ¬ (m = 7) := by omega
    have h8 : ¬ (m = 8) := by omega
    have h9 : ¬ (m = 9) := by omega
    have h10 : ¬ (m = 10) := by omega
    have h11 : ¬ (m = 11) := by omega
    have h12 : ¬ (m = 12) := by omega
    have h13 : ¬ (m = 13) := by omega
    have h14 : ¬ (m = 14) := by omega
    have h15 : ¬ (m = 15) := by omega
    simp [Nat.digitChar, h0, h1, h2, h3, h4, h5, h6, h7, h8, h9, h10, h11, h12, h13, h14, h15]

theorem toDigitsCore_ne_newline :
    ∀ (fuel n : Nat) (ds : List Char), (∀ c ∈ ds, c ≠ '\n') →
      ∀ c ∈ Nat.toDigitsCore 10 fuel n ds, c ≠ '\n' := by
  intro fuel
  induction fuel with
  | zero => intro n ds hds c hc; exact hds c hc
  | succ f ih =>
      intro n ds hds c hc
      unfold Nat.toDigitsCore at hc
      dsimp only at hc
      have hcons : ∀ c' ∈ Nat.digitChar (n % 10) :: ds, c' ≠ '\n' := by
        intro c' hc'
        rcases List.mem_cons.mp hc' with h | h
        · rw [h]; exact digitChar_ne_newline _
        · exact hds c' h
      split at hc
      · exact hcons c hc
      · exact ih (n / 10) _ hcons c hc

theorem toString_nat_ne_newline (n : Nat) : ('\n' : Char) ∉ (toString n).data := by
  intro h
  have hd : (toString n).data = Nat.toDigits 10 n := rfl
  rw [hd] at h
  exact toDigitsCore_ne_newline (n + 1) n [] (by simp) '\n' h rfl

theorem no_newline_append (a b : String) (ha : ('\n' : Char) ∉ a.data)
    (hb : ('\n' : Char) ∉ b.data) : ('\n' : Char) ∉ (a ++ b).data := by
  intro h
  rcases List.mem_append.mp (by simpa [String.data_append] using h) with h' | h'
  · exact ha h'
  · exact hb h'

theorem debugCountStatement_no_newline (n : Nat) :
    ('\n' : Char) ∉ (debugCountStatement n).data := by
  apply no_newline_append
  · apply no_newline_append
    · decide
    · exact toString_nat_ne_newline n
  · decide

theorem importStatement_no_newline (f : String) (hf : ('\n' : Char) ∉ f.data) :
    ('\n' : Char) ∉ ("import '" ++ posixJoinRoot f ++ "';").data := by
  apply no_newline_append
  · apply no_newline_append
    · decide
    · exact no_newline_append "/" f (by decide) hf
  · decide

theorem splitNl_jsJoin_newline :
    ∀ (ls : List String) (r : List Char), ls ≠ [] → (∀ l ∈ ls, ('\n' : Char) ∉ l.data) →
      splitNl ((jsJoin "\n" ls).data ++ '\n' :: r) = ls.map String.data ++ splitNl r := by
  intro ls
  induction ls with
  | nil => intro r h _; cases h rfl
  | cons x xs ih =>
      intro r _ hnl
      cases xs with
      | nil =>
          show splitNl (x.data ++ '\n' :: r) = [x.data] ++ splitNl r
          rw [splitNl_append_newline x.data r (hnl x (List.mem_cons_self x []))]
          rfl
      | cons y ys =>
          have hs : ("\n" : String).data = ['\n'] := rfl
          have hd : (jsJoin "\n" (x :: y :: ys)).data
              = x.data ++ '\n' :: (jsJoin "\n" (y :: ys)).data := by
            simp [jsJoin, String.data_append, hs]
          rw [hd, List.append_assoc, List.cons_append]
          rw [splitNl_append_newline x.data _ (hnl x (List.mem_cons_self x (y :: ys)))]
          rw [ih r (by simp) (fun l hl => hnl l (List.mem_cons_of_mem x hl))]
          rfl

/-! ### Claim theorems -/

/-- C1: the scan suffix is hard-coded: the options record has no
`filePattern` field, and on a tree holding both a `.fakepoints.ts` file and
a `.test-data.ts` file the scan discovers the `.fakepoints.ts` file, while
no options record the plugin accepts ever makes the `.test-data.ts` file
discoverable. -/
theorem scan_suffix_hardcoded :
    (findFakepointFiles "root" (.readable patternTestTree) []).1 =
      ["src/models/user.fakepoints.ts"] ∧
    ∀ opts : CollectFakepointsPluginOptions,
      "src/models/user.test-data.ts" ∉
        (findFakepointFiles "root" (.readable patternTestTree)
          (opts.ignoreDirs.getD [])).1 := by
  constructor
  · simp only [findFakepointFiles, patternTestTree, walkEntries]
    decide
  · intro opts hmem
    have hw := walkEntries_fst_eq (opts.ignoreDirs.getD []) patternTestTree "root" ""
    have hmem' : "src/models/user.test-data.ts" ∈
        (keptComps (opts.ignoreDirs.getD []) patternTestTree).map (extendBase "") := by
      rw [← hw]
      exact hmem
    simp only [patternTestTree, keptComps] at hmem'
    rw [show jsEndsWith "user.fakepoints.ts" ".fakepoints.ts" = true from by decide,
        show jsEndsWith "user.test-data.ts" ".fakepoints.ts" = false from by decide] at hmem'
    rcases Bool.eq_false_or_eq_true
        (isIgnoredDir (opts.ignoreDirs.getD []) "src") with h1 | h1 <;>
      rcases Bool.eq_false_or_eq_true
          (isIgnoredDir (opts.ignoreDirs.getD []) "models") with h2 | h2 <;>
      simp [h1, h2, extendBase, pathJoin] at hmem'

/-- C2: on a well-formed, fully readable tree the scan returns exactly the
root-relative forward-slash paths of the files whose name ends in
`.fakepoints.ts` and that lie beneath no directory whose base name is in
the default ignore set united with the caller-supplied one, at any depth,
in depth-first walk order and without duplicates. -/
theorem scan_returns_exactly_matching_files (ign : List String) (es : List FsEntry)
    (rootDir : String) (hwf : wfEntries es = true) (hrd : readableEntries es = true) :
    (findFakepointFiles rootDir (.readable es) ign).1 =
      ((allFiles es).filter fun p =>
        jsEndsWith p.2 ".fakepoints.ts" && p.1.all fun d => !(isIgnoredDir ign d)).map
        (fun p => joinComponents (p.1 ++ [p.2])) ∧
    (findFakepointFiles rootDir (.readable es) ign).1.Nodup := by
  have hfiles : (findFakepointFiles rootDir (.readable es) ign).1
      = (keptComps ign es).map (extendBase "") :=
    walkEntries_fst_eq ign es rootDir ""
  have hjoin : (keptComps ign es).map (extendBase "")
      = (keptComps ign es).map joinComponents := by
    apply List.map_congr_left
    intro comps hc
    obtain ⟨hne, hwc⟩ := keptComps_wf ign es hwf comps hc
    exact extendBase_empty comps hne hwc
  constructor
  · rw [hfiles, hjoin, keptComps_eq_filter ign es hrd, List.map_map]
    rfl
  · rw [hfiles, hjoin]
    apply List.Nodup.map_on ?_ (keptComps_nodup ign es hwf)
    intro x hx y hy hxy
    obtain ⟨hnex, hwx⟩ := keptComps_wf ign es hwf x hx
    obtain ⟨hney, hwy⟩ := keptComps_wf ign es hwf y hy
    exact joinComponents_inj x y hwx hwy hnex hney hxy

/-- C2 witness: the scan characterization at the specification scenario
(two matching files under `src`, one under `node_modules`), whose result is
exactly the two `src` paths. -/
theorem scan_returns_exactly_matching_files_witness :
    wfEntries demoTree = true ∧ readableEntries demoTree = true ∧
    (findFakepointFiles "root" (.readable demoTree) []).1 =
      ["src/models/user.fakepoints.ts", "src/utils/helper.fakepoints.ts"] ∧
    ((findFakepointFiles "root" (.readable demoTree) []).1 =
      ((allFiles demoTree).filter fun p =>
        jsEndsWith p.2 ".fakepoints.ts" && p.1.all fun d => !(isIgnoredDir [] d)).map
        (fun p => joinComponents (p.1 ++ [p.2])) ∧
     (findFakepointFiles "root" (.readable demoTree) []).1.Nodup) := by
  have hwf : wfEntries demoTree = true := by
    simp [demoTree, wfEntries, wfName, FsEntry.entryName]
  have hrd : readableEntries demoTree = true := by
    simp [demoTree, readableEntries]
  refine ⟨hwf, hrd, ?_, scan_returns_exactly_matching_files [] demoTree "root" hwf hrd⟩
  simp only [findFakepointFiles, demoTree, walkEntries]
  decide

/-- C6: the synthesized virtual module consists of the fixed header line,
one side-effecting import line per discovered file in input order (none for
an empty list, whose warning goes to the console, not into the module),
each import specifier being the file path prefixed with a forward slash,
a blank line, and — only when `debug` is set — a statement logging the
count of imported files. -/
theorem virtual_module_synthesis (debug : Bool) (files : List String)
    (workspaceRoot : String) (hnl : ∀ f ∈ files, ('\n' : Char) ∉ f.data) :
    moduleLines (loadVirtualModuleSource debug files) =
      [virtualModuleHeader]
      ++ (if files = [] then [""] else importStatements files)
      ++ ["", if debug then debugCountStatement files.length else "", ""] ∧
    importStatements files = files.map (fun f => "import '/" ++ f ++ "';") ∧
    (∀ l ∈ importStatements files, ("import '".data).isPrefixOf l.data = true) ∧
    (files = [] → ∀ l ∈ moduleLines (loadVirtualModuleSource debug files),
      ("import '".data).isPrefixOf l.data = false) ∧
    loadWarnings workspaceRoot files =
      (if files = [] then [emptyScanWarning workspaceRoot] else []) := by
  have hhdr : ('\n' : Char) ∉ virtualModuleHeader.data := by decide
  have hD : ('\n' : Char) ∉
      ((if debug then debugCountStatement (importStatements files).length else "")).data := by
    cases debug
    · simp only [if_neg Bool.false_ne_true]
      decide
    · simp only [if_pos rfl]
      exact debugCountStatement_no_newline _
  have himps : ∀ l ∈ importStatements files, ('\n' : Char) ∉ l.data := by
    intro l hl
    simp only [importStatements, List.mem_map] at hl
    obtain ⟨f, hf, hfl⟩ := hl
    rw [← hfl]
    exact importStatement_no_newline f (hnl f hf)
  have h1 : ("\n" : String).data = ['\n'] := rfl
  have h2 : ("\n\n" : String).data = ['\n', '\n'] := rfl
  have e1 : ∀ xs : List Char, splitNl ('\n' :: xs) = [] :: splitNl xs := by
    intro xs; simp [splitNl]
  have hlen : (importStatements files).length = files.length := by simp [importStatements]
  have hdata : (loadVirtualModuleSource debug files).data
      = virtualModuleHeader.data ++ '\n' ::
        ((jsJoin "\n" (importStatements files)).data ++ '\n' :: '\n' ::
          ((if debug then debugCountStatement (importStatements files).length else "").data
            ++ '\n' :: [])) := by
    simp [loadVirtualModuleSource, String.data_append, h1, h2]
  have hlines : moduleLines (loadVirtualModuleSource debug files) =
      [virtualModuleHeader]
      ++ (if files = [] then [""] else importStatements files)
      ++ ["", if debug then debugCountStatement files.length else "", ""] := by
    rw [moduleLines, hdata, splitNl_append_newline _ _ hhdr]
    by_cases hf : files = []
    · subst hf
      have hmk : ∀ s : String, String.mk s.data = s := fun _ => rfl
      have hD0 : ('\n' : Char) ∉
          ((if debug = true then debugCountStatement ([] : List String).length else "")).data := by
        cases debug <;> decide
      simp only [importStatements, List.map_nil, jsJoin]
      rw [List.nil_append, e1, e1, splitNl_append_newline _ [] hD0]
      simp [splitNl, importStatements, hmk]
    · have hne : importStatements files ≠ [] := by simp [importStatements, hf]
      rw [splitNl_jsJoin_newline (importStatements files) _ hne himps]
      rw [e1, splitNl_append_newline _ [] hD]
      simp only [splitNl, if_neg hf, hlen]
      simp only [List.map_append, List.map_cons, List.map_nil, List.map_map]
      rw [show (String.mk ∘ String.data) = id from funext fun s => rfl, List.map_id]
      rfl
  have himpform : importStatements files = files.map (fun f => "import '/" ++ f ++ "';") := by
    apply List.map_congr_left
    intro f _
    rfl
  refine ⟨hlines, himpform, ?_, ?_, ?_⟩
  · intro l hl
    simp only [importStatements, List.mem_map] at hl
    obtain ⟨f, _, hfl⟩ := hl
    rw [← hfl]
    rw [List.isPrefixOf_iff_prefix]
    exact ⟨('/' :: (f.data ++ "';".data)), by simp [String.data_append, posixJoinRoot]⟩
  · intro hf
    subst hf
    rw [hlines]
    cases debug
    · decide
    · decide
  · simp only [loadWarnings, hlen]
    by_cases hf : files = []
    · subst hf; simp
    · rw [if_neg (fun h => hf (List.length_eq_zero.mp h)), if_neg hf]

/-- C6 witness: the line decomposition of the module synthesized from two
concrete files with `debug` on, the hypothesis discharged by computation. -/
theorem virtual_module_synthesis_witness :
    (∀ f ∈ (["a.fakepoints.ts", "b/c.fakepoints.ts"] : List String),
      ('\n' : Char) ∉ f.data) ∧
    moduleLines (loadVirtualModuleSource true ["a.fakepoints.ts", "b/c.fakepoints.ts"]) =
      [virtualModuleHeader]
      ++ (if (["a.fakepoints.ts", "b/c.fakepoints.ts"] : List String) = [] then [""]
          else importStatements ["a.fakepoints.ts", "b/c.fakepoints.ts"])
      ++ ["", if (true : Bool) then
            debugCountStatement (["a.fakepoints.ts", "b/c.fakepoints.ts"] : List String).length
          else "", ""] := by
  refine ⟨by decide, ?_⟩
  exact (virtual_module_synthesis true ["a.fakepoints.ts", "b/c.fakepoints.ts"] "root"
    (by decide)).1

/-- C7: an unreadable directory costs exactly its own subtree: the files
returned equal those of the same tree with every unreadable subtree
removed, one warning is logged per unreadable directory the walk tries to
read (in walk order), a fully readable tree logs none, and an unreadable
root yields the empty file list with its warning instead of an error. -/
theorem unreadable_dir_skipped_scan_continues (ign : List String)
    (es : List FsEntry) (rootDir : String) :
    (findFakepointFiles rootDir (.readable es) ign).1 =
      (findFakepointFiles rootDir (.readable (pruneUnreadable es)) ign).1 ∧
    (findFakepointFiles rootDir (.readable es) ign).2 =
      (unreadableDirsIn ign es rootDir).map readdirWarning ∧
    (findFakepointFiles rootDir (.readable (pruneUnreadable es)) ign).2 = [] ∧
    findFakepointFiles rootDir .unreadable ign = ([], [readdirWarning rootDir]) := by
  refine ⟨?_, ?_, ?_, rfl⟩
  · show (walkEntries ign es rootDir "").1 = (walkEntries ign (pruneUnreadable es) rootDir "").1
    rw [walkEntries_fst_eq, walkEntries_fst_eq, keptComps_prune]
  · exact walkEntries_snd_eq ign es rootDir ""
  · show (walkEntries ign (pruneUnreadable es) rootDir "").2 = []
    rw [walkEntries_snd_eq, unreadableDirsIn_prune]
    rfl

/-- C4: when `watch` is false, `configureServer` attaches no listeners, and
no sequence of later file-system events ever triggers a restart. -/
theorem watch_disabled_no_restarts (workspaceRoot : String) (root : FsRoot)
    (ignoreDirs : List String) (events : List FsEvent) :
    (configureServer workspaceRoot false root ignoreDirs).listenersAttached = false ∧
    (processEvents (configureServer workspaceRoot false root ignoreDirs) events).restartReasons
      = [] := by
  have h0 : configureServer workspaceRoot false root ignoreDirs =
      { tracked := [], watcherPaths := [], restartReasons := [], listenersAttached := false } := by
    simp [configureServer]
  refine ⟨by rw [h0], ?_⟩
  rw [h0, processEvents_not_attached events _ rfl]

/-- C5: with listeners attached, an `add` event for a path ending in the
configured suffix appends the path to the tracked list, adds it to the host
watcher and requests exactly one restart tagged `file added`; an `unlink`
event removes the first occurrence from the tracked list (a no-op when the
path is absent) and requests exactly one restart tagged `file deleted`; an
event whose path does not match changes nothing, as does a `change` event. -/
theorem watcher_event_handler_effects (s : ServerState) (file : String)
    (hA : s.listenersAttached = true) :
    handleEvent s (.add file) =
      (if jsEndsWith file ".fakepoints.ts" then
        { s with tracked := s.tracked ++ [file]
                 watcherPaths := s.watcherPaths ++ [file]
                 restartReasons := s.restartReasons ++ ["file added"] }
       else s) ∧
    handleEvent s (.unlink file) =
      (if jsEndsWith file ".fakepoints.ts" then
        { s with tracked := s.tracked.erase file
                 restartReasons := s.restartReasons ++ ["file deleted"] }
       else s) ∧
    (file ∉ s.tracked → (handleEvent s (.unlink file)).tracked = s.tracked) ∧
    handleEvent s (.change file) = s := by
  refine ⟨?_, ?_, ?_, rfl⟩
  · simp only [handleEvent, hA, Bool.true_and]
  · simp only [handleEvent, hA, Bool.true_and]
  · intro hnm
    simp only [handleEvent, hA, Bool.true_and]
    split
    · simpa using List.erase_of_not_mem hnm
    · rfl

/-- C5 witness: the handler effects at a concrete state and matching path. -/
theorem watcher_event_handler_effects_witness :
    (ServerState.mk ["w/x.fakepoints.ts"] ["w/x.fakepoints.ts", "w"] [] true).listenersAttached
      = true ∧
    handleEvent (ServerState.mk ["w/x.fakepoints.ts"] ["w/x.fakepoints.ts", "w"] [] true)
        (.add "w/new.fakepoints.ts") =
      (if jsEndsWith "w/new.fakepoints.ts" ".fakepoints.ts" then
        { ServerState.mk ["w/x.fakepoints.ts"] ["w/x.fakepoints.ts", "w"] [] true with
            tracked := ["w/x.fakepoints.ts"] ++ ["w/new.fakepoints.ts"]
            watcherPaths := ["w/x.fakepoints.ts", "w"] ++ ["w/new.fakepoints.ts"]
            restartReasons := [] ++ ["file added"] }
       else ServerState.mk ["w/x.fakepoints.ts"] ["w/x.fakepoints.ts", "w"] [] true) := by
  refine ⟨rfl, ?_⟩
  exact (watcher_event_handler_effects
    (ServerState.mk ["w/x.fakepoints.ts"] ["w/x.fakepoints.ts", "w"] [] true)
    "w/new.fakepoints.ts" rfl).1

/-- C10: the tracked path list admits duplicates: two `add` events for the
same matching path append it twice (no membership check), and one `unlink`
then removes only the first occurrence, leaving the path still present. -/
theorem tracked_list_allows_duplicates (s : ServerState) (p : String)
    (hA : s.listenersAttached = true) (hp : jsEndsWith p ".fakepoints.ts" = true) :
    (handleEvent (handleEvent s (.add p)) (.add p)).tracked.count p
      = s.tracked.count p + 2 ∧
    (handleEvent (handleEvent (handleEvent s (.add p)) (.add p)) (.unlink p)).tracked.count p
      = s.tracked.count p + 1 ∧
    p ∈ (handleEvent (handleEvent (handleEvent s (.add p)) (.add p)) (.unlink p)).tracked := by
  have h1 : handleEvent s (.add p) =
      { s with tracked := s.tracked ++ [p]
               watcherPaths := s.watcherPaths ++ [p]
               restartReasons := s.restartReasons ++ ["file added"] } := by
    simp [handleEvent, hA, hp]
  have h2 : handleEvent (handleEvent s (.add p)) (.add p) =
      { s with tracked := (s.tracked ++ [p]) ++ [p]
               watcherPaths := (s.watcherPaths ++ [p]) ++ [p]
               restartReasons := (s.restartReasons ++ ["file added"]) ++ ["file added"] } := by
    rw [h1]; simp [handleEvent, hp, hA]
  have hcount : ((s.tracked ++ [p]) ++ [p]).count p = s.tracked.count p + 2 := by
    simp [List.count_append]
  have h3 : handleEvent (handleEvent (handleEvent s (.add p)) (.add p)) (.unlink p) =
      { s with tracked := ((s.tracked ++ [p]) ++ [p]).erase p
               watcherPaths := (s.watcherPaths ++ [p]) ++ [p]
               restartReasons :=
                 ((s.restartReasons ++ ["file added"]) ++ ["file added"]) ++ ["file deleted"] } := by
    rw [h2]; simp [handleEvent, hp, hA]
  have hc2 : (((s.tracked ++ [p]) ++ [p]).erase p).count p = s.tracked.count p + 1 := by
    rw [List.count_erase_self, hcount]; omega
  refine ⟨by rw [h2]; exact hcount, by rw [h3]; exact hc2, ?_⟩
  rw [h3]
  have : 0 < (((s.tracked ++ [p]) ++ [p]).erase p).count p := by omega
  exact List.count_pos_iff.mp this

/-- C10 witness: duplicate adds and a single unlink at a concrete state. -/
theorem tracked_list_allows_duplicates_witness :
    (ServerState.mk [] [] [] true).listenersAttached = true ∧
    jsEndsWith "d.fakepoints.ts" ".fakepoints.ts" = true ∧
    (handleEvent (handleEvent (ServerState.mk [] [] [] true) (.add "d.fakepoints.ts"))
        (.add "d.fakepoints.ts")).tracked.count "d.fakepoints.ts"
      = (ServerState.mk [] [] [] true).tracked.count "d.fakepoints.ts" + 2 := by
  refine ⟨rfl, by decide, ?_⟩
  exact (tracked_list_allows_duplicates (ServerState.mk [] [] [] true)
    "d.fakepoints.ts" rfl (by decide)).1

/-- C3 counterexample: for a concrete matching `add` event the full event
trace shows the handler returning strictly before the host restart
completes — the restart is not awaited to completion before the triggering
handler returns. -/
theorem restart_not_awaited_counterexample :
    addEventTrace true false "new.fakepoints.ts" =
      [.logged "➕ [watcher:add] New fakepoint file added: new.fakepoints.ts",
       .pushedTracked "new.fakepoints.ts",
       .watcherAdded "new.fakepoints.ts",
       .logged "   💡 Triggering Vitest rerun (file added)",
       .logged "   ✓ Restarting server to reload virtual module",
       .restartCalled, .handlerReturned, .restartCompleted] ∧
    ¬ ((addEventTrace true false "new.fakepoints.ts").indexOf TraceEvt.restartCompleted
        < (addEventTrace true false "new.fakepoints.ts").indexOf TraceEvt.handlerReturned) := by
  constructor <;> decide

/-- C3 amended: each matching add/unlink handler invokes the restart helper
exactly once without awaiting it: the helper logs and invokes the host
restart, the handler returns while the restart is still pending, and a
rejection of the restart is neither retried nor suppressed by the plugin —
it skips the rest of the helper and surfaces as an unhandled rejection
rather than as an error reaching the handler's caller. -/
theorem handler_restart_fire_and_forget (restartOk debug : Bool) (file : String)
    (h : jsEndsWith file ".fakepoints.ts" = true) :
    addEventTrace restartOk debug file =
      [.logged ("➕ [watcher:add] New fakepoint file added: " ++ file),
       .pushedTracked file, .watcherAdded file]
      ++ (if debug then [.logged "   ✓ Added to watcher for change detection"] else [])
      ++ [.logged "   💡 Triggering Vitest rerun (file added)",
          .logged "   ✓ Restarting server to reload virtual module",
          .restartCalled, .handlerReturned]
      ++ (if restartOk then [.restartCompleted]
          else [.restartRejected, .unhandledRejection]) ∧
    unlinkEventTrace restartOk file =
      [.logged ("➖ [watcher:unlink] Fakepoint file deleted: " ++ file),
       .erasedTracked file,
       .logged "   💡 Triggering Vitest rerun (file deleted)",
       .logged "   ✓ Restarting server to reload virtual module",
       .restartCalled, .handlerReturned]
      ++ (if restartOk then [.restartCompleted]
          else [.restartRejected, .unhandledRejection]) ∧
    (addEventTrace restartOk debug file).count .restartCalled = 1 ∧
    (unlinkEventTrace restartOk file).count .restartCalled = 1 := by
  have hb : ∀ s : String, ((TraceEvt.logged s) == TraceEvt.restartCalled) = false :=
    fun _ => rfl
  have hp : ∀ s : String, ((TraceEvt.pushedTracked s) == TraceEvt.restartCalled) = false :=
    fun _ => rfl
  have he : ∀ s : String, ((TraceEvt.erasedTracked s) == TraceEvt.restartCalled) = false :=
    fun _ => rfl
  have hw : ∀ s : String, ((TraceEvt.watcherAdded s) == TraceEvt.restartCalled) = false :=
    fun _ => rfl
  cases debug <;> cases restartOk <;>
    simp [addEventTrace, unlinkEventTrace, handlerTrace, addHandlerBody, unlinkHandlerBody,
      h, runHandlerStmts, runAsyncPrefix, triggerVitestRerunBody, settleContinuation,
      resumeAsync, List.count_cons, List.count_append, hb, hp, he, hw]

/-- C3 amended witness: the fire-and-forget trace shape at a concrete
matching file, with the restart once succeeding and the hypothesis
discharged by computation. -/
theorem handler_restart_fire_and_forget_witness :
    jsEndsWith "a.fakepoints.ts" ".fakepoints.ts" = true ∧
    (addEventTrace true true "a.fakepoints.ts").count .restartCalled = 1 := by
  refine ⟨by decide, ?_⟩
  exact (handler_restart_fire_and_forget true true "a.fakepoints.ts" (by decide)).2.2.1

/-- C8: `runAllFakepoints` calls every registered function once, in
registration order (the effect state is threaded left to right through the
whole list, and a newly registered function runs last, on the state left by
all earlier ones), and returns exactly the non-`undefined` results in that
order; each result is pushed as a single element, so a function returning a
list contributes one element, not its contents. -/
theorem runAllFakepoints_collects_in_order {σ α : Type}
    (fns : List (σ → σ × Option α)) (f : σ → σ × Option α) (s : σ) :
    (runAllFakepoints fns s).2 = (callResults fns s).filterMap id ∧
    (runAllFakepoints fns s).1 = fns.foldl (fun st g => (g st).1) s ∧
    (callResults fns s).length = fns.length ∧
    (runAllFakepoints fns s).2.length = ((callResults fns s).filter Option.isSome).length ∧
    callResults (registerFakepoints fns f) s =
      callResults fns s ++ [(f (fns.foldl (fun st g => (g st).1) s)).2] := by
  refine ⟨runAllFakepoints_snd fns s, runAllFakepoints_fst fns s, callResults_length fns s,
    ?_, ?_⟩
  · rw [runAllFakepoints_snd fns s, filterMap_id_length]
  · rw [registerFakepoints, callResults_append]
    rfl

/-- C9: every generate and seed operation shallow-merges the supplied
partial over the entity produced by the entity-faketory function (keys
present in the partial win, all other keys keep the generated value); in
the count-plus-partials shapes the partial at index `i` is merged into the
`i`-th entity and indices beyond the partials list get all defaults; seed
operations additionally append the created entities to the collection in
order. -/
theorem faketory_merge_semantics {K V : Type} (ef : EntityFaketory K V)
    (p : K → Option V) (ps : List (K → Option V)) (n : Nat) (store : List (K → V)) :
    (∀ (b : Bool) (j : Option Nat) (k : K),
      wrappedEntityFaketory ef ⟨b, some p, j⟩ k = (p k).getD (ef ⟨b, some p, j⟩ k)) ∧
    (∀ (b : Bool) (j : Option Nat),
      wrappedEntityFaketory ef ⟨b, none, j⟩ = ef ⟨b, none, j⟩) ∧
    (∀ k : K, generateOne ef (some p) k = (p k).getD (ef ⟨false, some p, some 0⟩ k)) ∧
    (∀ i, (generateMany ef (.inl n) (some ps))[i]? =
      if i < n then some (wrappedEntityFaketory ef ⟨false, ps[i]?, some i⟩) else none) ∧
    (∀ i, ps.length ≤ i → i < n →
      (generateMany ef (.inl n) (some ps))[i]? = some (ef ⟨false, none, some i⟩)) ∧
    (∀ i, (generateMany ef (.inl n) none)[i]? =
      if i < n then some (ef ⟨false, none, some i⟩) else none) ∧
    (∀ i, (generateMany ef (.inr ps) none)[i]? =
      (ps[i]?).map fun q => wrappedEntityFaketory ef ⟨false, some q, some i⟩) ∧
    seedOne ef (some p) store =
      (wrappedEntityFaketory ef ⟨true, some p, some 0⟩,
        store ++ [wrappedEntityFaketory ef ⟨true, some p, some 0⟩]) ∧
    (∀ i, (seedMany ef (.inl n) (some ps) store).1[i]? =
      if i < n then some (wrappedEntityFaketory ef ⟨true, ps[i]?, some i⟩) else none) ∧
    (seedMany ef (.inl n) (some ps) store).2 = store ++ (seedMany ef (.inl n) (some ps) store).1 ∧
    (∀ i, (seedMany ef (.inl n) none store).1[i]? =
      if i < n then some (ef ⟨true, none, some i⟩) else none) ∧
    (∀ i, (seedMany ef (.inr ps) none store).1[i]? =
      (ps[i]?).map fun q => wrappedEntityFaketory ef ⟨true, some q, some i⟩) ∧
    (seedMany ef (.inr ps) none store).2 = store ++ (seedMany ef (.inr ps) none store).1 ∧
    (generateMany ef (.inl n) (some ps)).length = n ∧
    (seedMany ef (.inl n) (some ps) store).1.length = n := by
  have hwrapN : ∀ (b : Bool) (j : Option Nat),
      wrappedEntityFaketory ef ⟨b, none, j⟩ = ef ⟨b, none, j⟩ := by
    intro b j; rfl
  have hwrapS : ∀ (b : Bool) (j : Option Nat) (k : K),
      wrappedEntityFaketory ef ⟨b, some p, j⟩ k = (p k).getD (ef ⟨b, some p, j⟩ k) := by
    intro b j k; rfl
  have hrange : ∀ (m i : Nat) (f : Nat → K → V),
      ((List.range m).map f)[i]? = if i < m then some (f i) else none := by
    intro m i f
    by_cases h : i < m
    · simp [List.getElem?_map, List.getElem?_range h, h]
    · have h0 : (List.range m)[i]? = none :=
        List.getElem?_eq_none (by simpa using Nat.le_of_not_lt h)
      simp [List.getElem?_map, h0, h]
  refine ⟨hwrapS, hwrapN, fun k => hwrapS false (some 0) k, ?_, ?_, ?_, ?_, rfl, ?_, rfl, ?_,
    ?_, rfl, ?_, ?_⟩
  · intro i
    simpa [generateMany] using hrange n i _
  · intro i hlen hi
    have hnone : ps[i]? = none := List.getElem?_eq_none hlen
    have hr := hrange n i fun index => wrappedEntityFaketory ef ⟨false, ps[index]?, some index⟩
    simp only [generateMany, hr, hi, if_true, hnone]
    rw [hwrapN]
  · intro i
    simpa [generateMany] using hrange n i _
  · intro i
    simp only [generateMany, List.getElem?_mapIdx]
  · intro i
    simpa [seedMany] using hrange n i _
  · intro i
    have hr := hrange n i fun index =>
      wrappedEntityFaketory ef
        ⟨true, ((List.replicate n (none : Option (K → Option V)))[index]?).join, some index⟩
    simp only [seedMany, hr]
    split
    · rename_i hi
      rw [List.getElem?_replicate, if_pos hi]
      rfl
    · rfl
  · intro i
    have hr := hrange ps.length i fun index =>
      wrappedEntityFaketory ef ⟨true, ((ps.map some)[index]?).join, some index⟩
    simp only [seedMany, hr]
    by_cases hi : i < ps.length
    · have hg : ps[i]? = some ps[i] := List.getElem?_eq_getElem hi
      simp [hi, hg]
    · have hg : ps[i]? = none := List.getElem?_eq_none (Nat.le_of_not_lt hi)
      simp [hi, hg]
  · simp [generateMany]
  · simp [seedMany]

/-- C9 witness: the merge at a concrete faketory and partial: the
overridden key takes the partial's value, the other key keeps the
generated default, and the third entity of a count-3 generate with one
partial uses all defaults. -/
theorem faketory_merge_semantics_witness :
    generateOne (fun _ _ => 1) (some fun k => if k then some 7 else none) true = 7 ∧
    generateOne (fun _ _ => 1) (some fun k => if k then some 7 else none) false = 1 ∧
    ([(fun k => if k then some 7 else none)] : List (Bool → Option Nat)).length ≤ 2 ∧ 2 < 3 ∧
    (generateMany (fun _ _ => 1) (.inl 3)
        (some [fun k => if k then some 7 else none]))[2]? =
      some ((fun _ _ => 1 : EntityFaketory Bool Nat) ⟨false, none, some 2⟩) := by
  have h := faketory_merge_semantics (fun _ _ => (1 : Nat))
    (fun k : Bool => if k then some 7 else none) [fun k => if k then some 7 else none] 3 []
  refine ⟨?_, ?_, by decide, by decide, ?_⟩
  · rw [h.2.2.1 true]; rfl
  · rw [h.2.2.1 false]; rfl
  · exact h.2.2.2.2.1 2 (by decide) (by decide)

end Fakes
